import Mathlib

/-!
Verification of the `Table<T>` container of the `uuidmap` crate.

Shallow embedding of `src/lib.rs`, a keyed dense-storage container.

The Rust `Table<T>` holds
  * `map : FxHashMap<u128, usize>` — key to slot index,
  * `data : Vec<T>` — dense value store,
  * `reverse : Vec<u128>` — slot index to key.

We model `u128` keys and `usize` slots as `Nat` (no arithmetic is done on
keys, and slot arithmetic never overflows because slots are bounded by the
vector length), `Vec<T>` as `List T`, and the hash map as an association
list with the hash map's semantics (at most one entry per key is an invariant
preserved by all operations starting from the empty map).

Fallible Rust operations — out-of-bounds `get_unchecked`, `Vec::swap_remove`
on a bad index, indexing `reverse[len-1]` on an empty vector, and
`Option::unwrap` — are modelled by returning `none` (a fault) from the
embedded operation, so safety claims become "the operation returns `some`".
-/

namespace Uuidmap

/-- Association-list model of the hash map's `get`:
the value of the first entry whose key matches, if any. -/
def mget : List (Nat × Nat) → Nat → Option Nat
  | [], _ => none
  | (k, v) :: rest, key => if k = key then some v else mget rest key

/-- Association-list model of the hash map's `remove`:
drop the entry whose key matches (the first one; there is at most one). -/
def mremove : List (Nat × Nat) → Nat → List (Nat × Nat)
  | [], _ => []
  | (k, v) :: rest, key => if k = key then rest else (k, v) :: mremove rest key

/-- Association-list model of writing through `map.get_mut(&key)`:
replace the value of the entry whose key matches, leaving the map
unchanged when the key is absent. -/
def mset : List (Nat × Nat) → Nat → Nat → List (Nat × Nat)
  | [], _, _ => []
  | (k, v) :: rest, key, val =>
    if k = key then (k, val) :: rest else (k, v) :: mset rest key val

/-- Association-list model of the hash map's `insert`:
afterwards `key` maps to `val` and every other key is unchanged. -/
def minsert (m : List (Nat × Nat)) (key val : Nat) : List (Nat × Nat) :=
  mremove m key ++ [(key, val)]

/-- Model of `Vec::swap_remove(i)`: return the element at `i`, replace it by
the last element and shrink by one.  Faults (`none`) when `i` is out of
bounds; the inner `none` branch (empty vector) is unreachable once the
lookup at `i` succeeded. -/
def swapRemove (l : List α) (i : Nat) : Option (α × List α) :=
  match l[i]? with
  | none => none
  | some v =>
    match l.getLast? with
    | none => none
    | some last => some (v, (l.set i last).dropLast)

/-- The `Table<T>` struct of `src/lib.rs`. -/
structure Table (α : Type) where
  map : List (Nat × Nat)
  data : List α
  reverse : List Nat

/-- Model of `Table::with_capacity`: the capacity argument only pre-sizes
the allocations and has no semantic effect, so the result is the empty
table. -/
def Table.with_capacity (α : Type) (_capacity : Nat) : Table α :=
  ⟨[], [], []⟩

/-- Model of `Table::default()`, which is `with_capacity(32)`. -/
def Table.mkDefault (α : Type) : Table α :=
  Table.with_capacity α 32

/-- Model of `Table::count`. -/
def Table.count (t : Table α) : Nat :=
  t.data.length

/-- Model of `Table::values`: the iterator over `data`, as the list it
yields. -/
def Table.values (t : Table α) : List α :=
  t.data

/-- Model of `Table::keys`: the iterator over the hash map's keys. -/
def Table.keys (t : Table α) : List Nat :=
  t.map.map Prod.fst

/-- Model of `Table::clear`. -/
def Table.clear (_t : Table α) : Table α :=
  ⟨[], [], []⟩

/-- Model of `Table::get`.  The outer `Option` is the fault channel for the
`get_unchecked` dense-store access; the inner one is present/absent. -/
def Table.get (t : Table α) (key : Nat) : Option (Option α) :=
  match mget t.map key with
  | some index => (t.data[index]?).map some
  | none => some none

/-- Model of `Table::get_mut`, together with the caller writing `newVal`
through the returned mutable reference.  Returns the previous value and the
mutated table; `none` is the fault channel for `get_unchecked_mut`. -/
def Table.get_mut (t : Table α) (key : Nat) (newVal : α) :
    Option (Option α × Table α) :=
  match mget t.map key with
  | some index =>
    match t.data[index]? with
    | some v => some (some v, ⟨t.map, t.data.set index newVal, t.reverse⟩)
    | none => none
  | none => some (none, t)

/-- Model of `Table::remove`.  The result `none` is the fault channel
(out-of-bounds `swap_remove`, `reverse[reverse.len()-1]` on an empty
vector, or the `unwrap` on the moved key's map entry). -/
def Table.remove (t : Table α) (key : Nat) : Option (Option α × Table α) :=
  match mget t.map key with
  | none => some (none, t)
  | some index =>
    let map₁ := mremove t.map key
    match swapRemove t.data index with
    | none => none
    | some (value, data₁) =>
      match t.reverse.getLast? with
      | none => none
      | some pre_move_index =>
        match swapRemove t.reverse index with
        | none => none
        | some (_, reverse₁) =>
          if index < reverse₁.length then
            match mget map₁ pre_move_index with
            | none => none
            | some _ =>
              some (some value, ⟨mset map₁ pre_move_index index, data₁, reverse₁⟩)
          else
            some (some value, ⟨map₁, data₁, reverse₁⟩)

/-- Model of `Table::add_with_key`: remove any existing entry, then
append. -/
def Table.add_with_key (t : Table α) (key : Nat) (value : α) :
    Option (Table α) :=
  match t.remove key with
  | none => none
  | some (_, t₁) =>
    let data₂ := t₁.data ++ [value]
    let reverse₂ := t₁.reverse ++ [key]
    let index := data₂.length - 1
    some ⟨minsert t₁.map key index, data₂, reverse₂⟩

/-- Model of `Table::add`: draw a fresh random 128-bit key and defer to
`add_with_key`.  The randomness source is an external collaborator, so the
drawn key is passed as a parameter. -/
def Table.add (t : Table α) (key : Nat) (value : α) :
    Option (Nat × Table α) :=
  match t.add_with_key key value with
  | none => none
  | some t₁ => some (key, t₁)

/-- One mutating call in a call sequence: `add_with_key key value`
(also standing for an `add` that drew `key`) or `remove key`. -/
inductive Op (α : Type) where
  | addk : Nat → α → Op α
  | rem : Nat → Op α

/-- Run one operation, dropping the value returned by `remove`. -/
def applyOp (t : Table α) : Op α → Option (Table α)
  | Op.addk k v => t.add_with_key k v
  | Op.rem k => (t.remove k).map Prod.snd

/-- Run a sequence of operations left to right. -/
def applyOps (t : Table α) : List (Op α) → Option (Table α)
  | [] => some t
  | op :: rest =>
    match applyOp t op with
    | none => none
    | some t₁ => applyOps t₁ rest

/-- The keys inserted by the sequence's add operations, in order. -/
def addKeys : List (Op α) → List Nat
  | [] => []
  | Op.addk k _ :: rest => k :: addKeys rest
  | Op.rem _ :: rest => addKeys rest

/-- How many add operations a sequence contains. -/
def numAdds : List (Op α) → Nat
  | [] => 0
  | Op.addk _ _ :: rest => numAdds rest + 1
  | Op.rem _ :: rest => numAdds rest

/-- How many remove operations a sequence contains. -/
def numRemoves : List (Op α) → Nat
  | [] => 0
  | Op.addk _ _ :: rest => numRemoves rest
  | Op.rem _ :: rest => numRemoves rest + 1

/-- Check that every `remove` in the sequence targets a key that is live
at the moment it runs. -/
def removesLive (t : Table α) : List (Op α) → Bool
  | [] => true
  | op :: rest =>
    (match op with
     | Op.rem k => (mget t.map k).isSome
     | Op.addk _ _ => true) &&
    (match applyOp t op with
     | some t₁ => removesLive t₁ rest
     | none => true)

/-- A small sample table used to witness the theorems on concrete data:
keys 5, 7 and 9 at slots 0, 1 and 2, holding 10, 20 and 30. -/
def tblA : Table Nat :=
  ⟨[(5, 0), (7, 1), (9, 2)], [10, 20, 30], [5, 7, 9]⟩

/-- A sample call sequence: three adds with distinct keys and one remove
of a live key. -/
def opsA : List (Op Nat) :=
  [Op.addk 1 10, Op.addk 2 20, Op.rem 1, Op.addk 3 30]

/-- The map holds at most one entry per key. -/
@[reducible] def NodupKeys (m : List (Nat × Nat)) : Prop :=
  (m.map Prod.fst).Nodup

/-- The state invariant of the table:
  * at most one map entry per key;
  * `map`, `data` and `reverse` have equal lengths;
  * `reverse[i]`'s map entry is `i` for every valid slot `i`;
  * conversely every map entry `(k, i)` satisfies `reverse[i] = k`
    (hence `i < count`). -/
@[reducible] def Table.WF (t : Table α) : Prop :=
  NodupKeys t.map ∧
  t.map.length = t.data.length ∧
  t.reverse.length = t.data.length ∧
  (∀ i (h : i < t.reverse.length), mget t.map (t.reverse.get ⟨i, h⟩) = some i) ∧
  (∀ p, p ∈ t.map → t.reverse[p.2]? = some p.1)

/-! Lemmas about the association-list map model. -/

theorem mget_eq_none_iff {m : List (Nat × Nat)} {k : Nat} :
    mget m k = none ↔ k ∉ m.map Prod.fst := by
  induction m with
  | nil => simp [mget]
  | cons p rest ih =>
    obtain ⟨k', v⟩ := p
    by_cases h : k' = k
    · subst h
      simp [mget]
    · rw [show mget ((k', v) :: rest) k = mget rest k by simp [mget, h],
        List.map_cons, List.mem_cons, ih]
      constructor
      · intro hn hc
        rcases hc with hc | hc
        · exact h hc.symm
        · exact hn hc
      · intro hn hc
        exact hn (Or.inr hc)

theorem mget_mem {m : List (Nat × Nat)} {k i : Nat}
    (h : mget m k = some i) : (k, i) ∈ m := by
  induction m with
  | nil => simp [mget] at h
  | cons p rest ih =>
    obtain ⟨k', v⟩ := p
    by_cases hk : k' = k
    · simp [mget, hk] at h
      simp [hk, h]
    · simp [mget, hk] at h
      simp [ih h]

theorem mem_mget {m : List (Nat × Nat)} {k i : Nat}
    (hnd : NodupKeys m) (h : (k, i) ∈ m) : mget m k = some i := by
  induction m with
  | nil => simp at h
  | cons p rest ih =>
    obtain ⟨k', v⟩ := p
    have hnd1 : (k' :: rest.map Prod.fst).Nodup := hnd
    have hcons := List.nodup_cons.mp hnd1
    rcases List.mem_cons.mp h with h1 | h1
    · obtain ⟨h2, h3⟩ := Prod.mk.injEq .. ▸ h1
      subst h2
      subst h3
      simp [mget]
    · by_cases hk : k' = k
      · exfalso
        subst hk
        exact hcons.1 (List.mem_map.mpr ⟨(k', i), h1, rfl⟩)
      · simp only [mget, if_neg hk]
        exact ih hcons.2 h1

theorem mremove_eq_of_none {m : List (Nat × Nat)} {k : Nat}
    (h : mget m k = none) : mremove m k = m := by
  induction m with
  | nil => rfl
  | cons p rest ih =>
    obtain ⟨k', v⟩ := p
    by_cases hk : k' = k
    · simp [mget, hk] at h
    · simp only [mget, if_neg hk] at h
      simp [mremove, hk, ih h]

theorem length_mremove_of_some {m : List (Nat × Nat)} {k i : Nat}
    (h : mget m k = some i) : (mremove m k).length + 1 = m.length := by
  induction m with
  | nil => simp [mget] at h
  | cons p rest ih =>
    obtain ⟨k', v⟩ := p
    by_cases hk : k' = k
    · simp [mremove, hk]
    · simp only [mget, if_neg hk] at h
      simp [mremove, hk, ih h]

theorem keys_mremove_sublist (m : List (Nat × Nat)) (k : Nat) :
    ((mremove m k).map Prod.fst).Sublist (m.map Prod.fst) := by
  induction m with
  | nil => simp [mremove]
  | cons p rest ih =>
    obtain ⟨k', v⟩ := p
    by_cases hk : k' = k
    · simp only [mremove, if_pos hk, List.map_cons]
      exact (List.sublist_cons_self k' (rest.map Prod.fst)).trans
        (List.Sublist.refl _) |>.trans (List.Sublist.refl _)
    · simp only [mremove, if_neg hk, List.map_cons]
      exact ih.cons₂ k'

theorem nodupKeys_mremove {m : List (Nat × Nat)} (k : Nat)
    (hnd : NodupKeys m) : NodupKeys (mremove m k) :=
  List.Nodup.sublist (keys_mremove_sublist m k) hnd

theorem mget_mremove_ne {m : List (Nat × Nat)} {k k' : Nat}
    (h : k' ≠ k) : mget (mremove m k) k' = mget m k' := by
  induction m with
  | nil => rfl
  | cons p rest ih =>
    obtain ⟨k₀, v⟩ := p
    by_cases hk : k₀ = k
    · subst hk
      have : ¬k₀ = k' := fun he => h (he ▸ rfl)
      simp [mremove, mget, this]
    · by_cases hk' : k₀ = k'
      · simp [mremove, hk, mget, hk', h]
      · simp [mremove, hk, mget, hk', ih]

theorem mget_mremove_self {m : List (Nat × Nat)} {k : Nat}
    (hnd : NodupKeys m) : mget (mremove m k) k = none := by
  induction m with
  | nil => rfl
  | cons p rest ih =>
    obtain ⟨k', v⟩ := p
    have hnd1 : (k' :: rest.map Prod.fst).Nodup := hnd
    have hcons := List.nodup_cons.mp hnd1
    by_cases hk : k' = k
    · subst hk
      simp only [mremove, if_pos rfl]
      exact mget_eq_none_iff.mpr hcons.1
    · simp only [mremove, if_neg hk, mget, if_neg hk]
      exact ih hcons.2

theorem keys_mset (m : List (Nat × Nat)) (k v : Nat) :
    (mset m k v).map Prod.fst = m.map Prod.fst := by
  induction m with
  | nil => rfl
  | cons p rest ih =>
    obtain ⟨k', v'⟩ := p
    by_cases hk : k' = k
    · simp [mset, hk]
    · simp [mset, hk, ih]

theorem nodupKeys_mset {m : List (Nat × Nat)} {k v : Nat}
    (hnd : NodupKeys m) : NodupKeys (mset m k v) := by
  unfold NodupKeys
  rw [keys_mset]
  exact hnd

theorem length_mset (m : List (Nat × Nat)) (k v : Nat) :
    (mset m k v).length = m.length := by
  induction m with
  | nil => rfl
  | cons p rest ih =>
    obtain ⟨k', v'⟩ := p
    by_cases hk : k' = k
    · simp [mset, hk]
    · simp [mset, hk, ih]

theorem mget_mset_self {m : List (Nat × Nat)} {k v : Nat}
    (h : (mget m k).isSome) : mget (mset m k v) k = some v := by
  induction m with
  | nil => simp [mget] at h
  | cons p rest ih =>
    obtain ⟨k', v'⟩ := p
    by_cases hk : k' = k
    · simp [mset, hk, mget]
    · simp only [mget, if_neg hk] at h
      simp only [mset, if_neg hk, mget, if_neg hk]
      exact ih h

theorem mget_mset_ne {m : List (Nat × Nat)} {k k' v : Nat}
    (h : k' ≠ k) : mget (mset m k v) k' = mget m k' := by
  induction m with
  | nil => rfl
  | cons p rest ih =>
    obtain ⟨k₀, v'⟩ := p
    by_cases hk : k₀ = k
    · subst hk
      have : ¬k₀ = k' := fun he => h (he ▸ rfl)
      simp [mset, mget, this]
    · by_cases hk' : k₀ = k'
      · simp [mset, hk, mget, hk', h]
      · simp [mset, hk, mget, hk', ih]

theorem mget_append_left {m l : List (Nat × Nat)} {k i : Nat}
    (h : mget m k = some i) : mget (m ++ l) k = some i := by
  induction m with
  | nil => simp [mget] at h
  | cons p rest ih =>
    obtain ⟨k', v⟩ := p
    by_cases hk : k' = k
    · simp [mget, hk] at h ⊢
      exact h
    · simp only [mget, if_neg hk] at h
      simp only [List.cons_append, mget, if_neg hk]
      exact ih h

theorem mget_append_right {m l : List (Nat × Nat)} {k : Nat}
    (h : mget m k = none) : mget (m ++ l) k = mget l k := by
  induction m with
  | nil => rfl
  | cons p rest ih =>
    obtain ⟨k', v⟩ := p
    by_cases hk : k' = k
    · simp [mget, hk] at h
    · simp only [mget, if_neg hk] at h
      simp only [List.cons_append, mget, if_neg hk]
      exact ih h

theorem mget_minsert_self {m : List (Nat × Nat)} {k v : Nat}
    (hnd : NodupKeys m) : mget (minsert m k v) k = some v := by
  unfold minsert
  rw [mget_append_right (mget_mremove_self hnd)]
  simp [mget]

theorem mget_minsert_ne {m : List (Nat × Nat)} {k k' v : Nat}
    (h : k' ≠ k) : mget (minsert m k v) k' = mget m k' := by
  unfold minsert
  cases hg : mget (mremove m k) k' with
  | none =>
    rw [mget_append_right hg]
    have hk : ¬k = k' := fun he => h he.symm
    rw [mget_mremove_ne h] at hg
    simp [mget, hk, hg]
  | some i =>
    rw [mget_append_left hg]
    rw [mget_mremove_ne h] at hg
    exact hg.symm

theorem length_minsert_of_none {m : List (Nat × Nat)} {k v : Nat}
    (h : mget m k = none) : (minsert m k v).length = m.length + 1 := by
  unfold minsert
  rw [mremove_eq_of_none h]
  simp

theorem nodupKeys_minsert {m : List (Nat × Nat)} (k v : Nat)
    (hnd : NodupKeys m) : NodupKeys (minsert m k v) := by
  unfold NodupKeys minsert
  rw [List.map_append]
  refine List.Nodup.append (nodupKeys_mremove k hnd) (by simp) ?_
  intro a ha hb
  simp at hb
  subst hb
  exact (mget_eq_none_iff.mp (mget_mremove_self (k := a) hnd)) ha

/-! Lemmas about `swapRemove` and the list operations it is built from. -/

theorem swapRemove_eq {l : List α} {i : Nat} {v last : α}
    (h1 : l[i]? = some v) (h2 : l.getLast? = some last) :
    swapRemove l i = some (v, (l.set i last).dropLast) := by
  simp [swapRemove, h1, h2]

theorem getElem?_set_dropLast {l : List α} {i j : Nat} (a : α)
    (hj : j < l.length - 1) :
    ((l.set i a).dropLast)[j]? = if j = i then some a else l[j]? := by
  rw [List.dropLast_eq_take, List.length_set, List.getElem?_take_of_lt hj]
  by_cases he : j = i
  · subst he
    rw [if_pos rfl]
    exact List.getElem?_set_eq_of_lt a (lt_of_lt_of_le hj (Nat.sub_le _ _))
  · rw [if_neg he]
    exact List.getElem?_set_ne (fun hc => he hc.symm)

theorem length_set_dropLast (l : List α) (i : Nat) (a : α) :
    ((l.set i a).dropLast).length = l.length - 1 := by
  simp

theorem getLast?_eq_some_of_lt {l : List α} (h : 0 < l.length) :
    ∃ last, l.getLast? = some last ∧ l[l.length - 1]? = some last := by
  rw [List.getLast?_eq_getElem?]
  have hh : l.length - 1 < l.length := by omega
  exact ⟨l.get ⟨l.length - 1, hh⟩, List.getElem?_eq_getElem hh,
    List.getElem?_eq_getElem hh⟩

/-! Derived facts about the `WF` invariant. -/

theorem Table.WF.nodup {t : Table α} (h : t.WF) : NodupKeys t.map := h.1

theorem Table.WF.map_len {t : Table α} (h : t.WF) :
    t.map.length = t.data.length := h.2.1

theorem Table.WF.rev_len {t : Table α} (h : t.WF) :
    t.reverse.length = t.data.length := h.2.2.1

theorem Table.WF.mem_rev {t : Table α} (h : t.WF) :
    ∀ p ∈ t.map, t.reverse[p.2]? = some p.1 := h.2.2.2.2

theorem Table.WF.mget_of_rev {t : Table α} (hwf : t.WF) {i k : Nat}
    (h : t.reverse[i]? = some k) : mget t.map k = some i := by
  obtain ⟨hi, he⟩ := List.getElem?_eq_some.mp h
  have h4 := hwf.2.2.2.1 i hi
  rw [List.get_eq_getElem] at h4
  rw [he] at h4
  exact h4

theorem Table.WF.key_at {t : Table α} (hwf : t.WF) {k i : Nat}
    (h : mget t.map k = some i) : t.reverse[i]? = some k :=
  hwf.mem_rev (k, i) (mget_mem h)

theorem Table.WF.slot_lt {t : Table α} (hwf : t.WF) {k i : Nat}
    (h : mget t.map k = some i) : i < t.data.length := by
  have h1 : i < t.reverse.length := (List.getElem?_eq_some.mp (hwf.key_at h)).1
  have h2 := hwf.rev_len
  omega

theorem Table.WF.key_inj {t : Table α} (hwf : t.WF) {k k' i : Nat}
    (h : mget t.map k = some i) (h' : mget t.map k' = some i) : k = k' :=
  Option.some.inj ((hwf.key_at h).symm.trans (hwf.key_at h'))

/-! Behaviour of `Table::remove` on a live key. -/

/-- The post-removal state is well-formed, given how its map and reverse
log relate to the pre-state.  Shared by both branches of `remove`
(removed slot last or not). -/
theorem removed_wf {α : Type} {t t' : Table α} {k i : Nat}
    (hwf : t.WF) (hk : mget t.map k = some i)
    (hnd : NodupKeys t'.map)
    (hmlen : t'.map.length + 1 = t.map.length)
    (hdlen : t'.data.length + 1 = t.data.length)
    (hrlen : t'.reverse.length + 1 = t.data.length)
    (hdead : mget t'.map k = none)
    (hmapchar : ∀ k', k' ≠ k → mget t'.map k' =
      if mget t.map k' = some (t.data.length - 1) then some i
      else mget t.map k')
    (hrevchar : ∀ j, j < t.data.length - 1 →
      t'.reverse[j]? = if j = i then t.reverse[t.data.length - 1]?
      else t.reverse[j]?) :
    t'.WF := by
  have hi : i < t.data.length := hwf.slot_lt hk
  have hrl := hwf.rev_len
  have hml := hwf.map_len
  obtain ⟨pk, hpkLast, hlastidx⟩ :=
    getLast?_eq_some_of_lt (l := t.reverse) (by omega)
  rw [hrl] at hlastidx
  have hpkMap : mget t.map pk = some (t.data.length - 1) :=
    hwf.mget_of_rev hlastidx
  refine ⟨hnd, by omega, by omega, ?_, ?_⟩
  · -- every valid slot of the new reverse log points back to itself
    intro j hj
    have hj' : j < t.data.length - 1 := by omega
    have hjq : t'.reverse[j]? = some (t'.reverse.get ⟨j, hj⟩) :=
      List.getElem?_eq_getElem hj
    rw [hrevchar j hj'] at hjq
    by_cases hji : j = i
    · rw [if_pos hji, hlastidx] at hjq
      have hkey : t'.reverse.get ⟨j, hj⟩ = pk := (Option.some.inj hjq).symm
      rw [hkey]
      have hpkk : pk ≠ k := by
        intro he
        rw [he, hk] at hpkMap
        have := Option.some.inj hpkMap
        omega
      rw [hmapchar _ hpkk, if_pos hpkMap, hji]
    · rw [if_neg hji] at hjq
      have hkj : mget t.map (t'.reverse.get ⟨j, hj⟩) = some j :=
        hwf.mget_of_rev hjq
      have hkjk : t'.reverse.get ⟨j, hj⟩ ≠ k := by
        intro he
        rw [he, hk] at hkj
        exact hji (Option.some.inj hkj).symm
      rw [hmapchar _ hkjk, if_neg, hkj]
      intro hc
      rw [hkj] at hc
      have := Option.some.inj hc
      omega
  · -- every map entry points to a slot holding its key
    intro p hp
    obtain ⟨k', j⟩ := p
    show t'.reverse[j]? = some k'
    have hm : mget t'.map k' = some j := mem_mget hnd hp
    have hkk : k' ≠ k := by
      intro he
      rw [he, hdead] at hm
      exact Option.noConfusion hm
    rw [hmapchar _ hkk] at hm
    by_cases hcond : mget t.map k' = some (t.data.length - 1)
    · rw [if_pos hcond] at hm
      have hji : j = i := (Option.some.inj hm).symm
      have hilt : i < t.data.length - 1 := by
        by_contra hc
        have hieq : i = t.data.length - 1 := by omega
        rw [hieq] at hk
        exact hkk (hwf.key_inj hcond hk)
      have hkpk : k' = pk := hwf.key_inj hcond hpkMap
      rw [hji, hrevchar i hilt, if_pos rfl, hlastidx, hkpk]
    · rw [if_neg hcond] at hm
      have hji : j ≠ i := by
        intro he
        rw [he] at hm
        exact hkk (hwf.key_inj hm hk)
      have hjlt : j < t.data.length - 1 := by
        have h1 := hwf.slot_lt hm
        have h2 : j ≠ t.data.length - 1 := fun he => hcond (he ▸ hm)
        omega
      rw [hrevchar j hjlt, if_neg hji]
      exact hwf.key_at hm

/-- Full characterization of `remove` on a live key: it succeeds, returns
the stored value, preserves the invariant, shrinks the store by one slot,
kills the removed key, remaps the key of the last slot onto the vacated
slot (when the removed slot was not the last), and moves the last slot's
value there. -/
theorem remove_spec {α : Type} {t : Table α} {k i : Nat}
    (hwf : t.WF) (hk : mget t.map k = some i) :
    ∃ v t', t.remove k = some (some v, t') ∧
      t.data[i]? = some v ∧
      t'.WF ∧
      t'.data.length + 1 = t.data.length ∧
      mget t'.map k = none ∧
      (∀ k', k' ≠ k → mget t'.map k' =
        if mget t.map k' = some (t.data.length - 1) then some i
        else mget t.map k') ∧
      (∀ j, j < t.data.length - 1 →
        t'.data[j]? = if j = i then t.data[t.data.length - 1]?
        else t.data[j]?) := by
  have hi : i < t.data.length := hwf.slot_lt hk
  have hrl := hwf.rev_len
  have hml := hwf.map_len
  have hnd := hwf.nodup
  obtain ⟨dl, hdlLast, hdlIdx⟩ :=
    getLast?_eq_some_of_lt (l := t.data) (by omega)
  obtain ⟨pk, hpkLast, hpkIdx⟩ :=
    getLast?_eq_some_of_lt (l := t.reverse) (by omega)
  rw [hrl] at hpkIdx
  have hrevk : t.reverse[i]? = some k := hwf.key_at hk
  have hv : t.data[i]? = some (t.data.get ⟨i, hi⟩) := List.getElem?_eq_getElem hi
  have hsrd : swapRemove t.data i =
      some (t.data.get ⟨i, hi⟩, (t.data.set i dl).dropLast) :=
    swapRemove_eq hv hdlLast
  have hsrr : swapRemove t.reverse i =
      some (k, (t.reverse.set i pk).dropLast) :=
    swapRemove_eq hrevk hpkLast
  have hpkMap : mget t.map pk = some (t.data.length - 1) :=
    hwf.mget_of_rev hpkIdx
  have hrevlen : ((t.reverse.set i pk).dropLast).length = t.data.length - 1 := by
    rw [length_set_dropLast, hrl]
  have hdatalen : ((t.data.set i dl).dropLast).length = t.data.length - 1 :=
    length_set_dropLast _ _ _
  have hdatachar : ∀ j, j < t.data.length - 1 →
      ((t.data.set i dl).dropLast)[j]? =
        if j = i then t.data[t.data.length - 1]? else t.data[j]? := by
    intro j hj
    rw [getElem?_set_dropLast dl hj, hdlIdx]
  have hrevchar : ∀ j, j < t.data.length - 1 →
      ((t.reverse.set i pk).dropLast)[j]? =
        if j = i then t.reverse[t.data.length - 1]? else t.reverse[j]? := by
    intro j hj
    have hj' : j < t.reverse.length - 1 := by omega
    rw [getElem?_set_dropLast pk hj', hpkIdx]
  by_cases hlt : i < t.data.length - 1
  · -- the removed slot is not the last: the moved key's entry is updated
    have hpkk : pk ≠ k := by
      intro he
      rw [he, hk] at hpkMap
      have := Option.some.inj hpkMap
      omega
    have hm1pk : mget (mremove t.map k) pk = some (t.data.length - 1) := by
      rw [mget_mremove_ne hpkk]
      exact hpkMap
    have hrem : t.remove k = some (some (t.data.get ⟨i, hi⟩),
        ⟨mset (mremove t.map k) pk i, (t.data.set i dl).dropLast,
         (t.reverse.set i pk).dropLast⟩) := by
      simp only [Table.remove, hk, hsrd, hpkLast, hsrr]
      rw [if_pos (show i < ((t.reverse.set i pk).dropLast).length by omega)]
      simp only [hm1pk]
    have hdead : mget (mset (mremove t.map k) pk i) k = none := by
      rw [mget_mset_ne (Ne.symm hpkk)]
      exact mget_mremove_self hnd
    have hmapchar : ∀ k', k' ≠ k →
        mget (mset (mremove t.map k) pk i) k' =
          if mget t.map k' = some (t.data.length - 1) then some i
          else mget t.map k' := by
      intro k' hne
      by_cases hpe : k' = pk
      · rw [hpe, if_pos hpkMap]
        exact mget_mset_self (by simp [hm1pk])
      · rw [if_neg (fun hc => hpe (hwf.key_inj hc hpkMap)),
          mget_mset_ne hpe, mget_mremove_ne hne]
    refine ⟨t.data.get ⟨i, hi⟩,
      ⟨mset (mremove t.map k) pk i, (t.data.set i dl).dropLast,
       (t.reverse.set i pk).dropLast⟩,
      hrem, hv, ?_, by rw [hdatalen]; omega, hdead, hmapchar, hdatachar⟩
    refine removed_wf hwf hk (nodupKeys_mset (nodupKeys_mremove _ hnd)) ?_
      (by rw [hdatalen]; omega) (by rw [hrevlen]; omega) hdead hmapchar hrevchar
    rw [length_mset]
    rw [length_mremove_of_some hk]
  · -- the removed slot is the last one: nothing moves
    have hieq : i = t.data.length - 1 := by omega
    have hrem : t.remove k = some (some (t.data.get ⟨i, hi⟩),
        ⟨mremove t.map k, (t.data.set i dl).dropLast,
         (t.reverse.set i pk).dropLast⟩) := by
      simp only [Table.remove, hk, hsrd, hpkLast, hsrr]
      rw [if_neg (show ¬i < ((t.reverse.set i pk).dropLast).length by omega)]
    have hdead : mget (mremove t.map k) k = none := mget_mremove_self hnd
    have hmapchar : ∀ k', k' ≠ k →
        mget (mremove t.map k) k' =
          if mget t.map k' = some (t.data.length - 1) then some i
          else mget t.map k' := by
      intro k' hne
      rw [mget_mremove_ne hne]
      rw [if_neg]
      intro hc
      rw [hieq] at hk
      exact hne (hwf.key_inj hc hk)
    refine ⟨t.data.get ⟨i, hi⟩,
      ⟨mremove t.map k, (t.data.set i dl).dropLast,
       (t.reverse.set i pk).dropLast⟩,
      hrem, hv, ?_, by rw [hdatalen]; omega, hdead, hmapchar, hdatachar⟩
    exact removed_wf hwf hk (nodupKeys_mremove _ hnd)
      (length_mremove_of_some hk) (by rw [hdatalen]; omega)
      (by rw [hrevlen]; omega) hdead hmapchar hrevchar

/-- Removing a key with no map entry is a no-op returning `None`. -/
theorem remove_dead {α : Type} {t : Table α} {k : Nat}
    (h : mget t.map k = none) : t.remove k = some (none, t) := by
  simp only [Table.remove, h]

/-- Inversion principle for a successful, present `get`. -/
theorem get_eq_some_iff {α : Type} {t : Table α} {k : Nat} {w : α} :
    t.get k = some (some w) ↔
      ∃ j, mget t.map k = some j ∧ t.data[j]? = some w := by
  cases hg : mget t.map k with
  | none => simp [Table.get, hg]
  | some j => simp [Table.get, hg]

/-- Removal of an other key never changes the value `get` returns for a
surviving key. -/
theorem remove_preserves_get {α : Type} {t : Table α} {k : Nat}
    (hwf : t.WF) {v : α} {t' : Table α}
    (hrem : t.remove k = some (some v, t')) :
    ∀ k' w, k' ≠ k → t.get k' = some (some w) → t'.get k' = some (some w) := by
  intro k' w hne hget
  cases hm : mget t.map k with
  | none =>
    rw [remove_dead hm] at hrem
    simp at hrem
  | some i =>
    obtain ⟨v₀, t₀, hr, hvi, hwf', hlen, hdead, hmapchar, hdatachar⟩ :=
      remove_spec hwf hm
    rw [hr] at hrem
    have ht : t₀ = t' := congrArg Prod.snd (Option.some.inj hrem)
    subst ht
    obtain ⟨j, hgj, hdj⟩ := get_eq_some_iff.mp hget
    have hjlt : j < t.data.length := hwf.slot_lt hgj
    have hji : j ≠ i := by
      intro he
      rw [he] at hgj
      exact hne (hwf.key_inj hgj hm)
    have hmc := hmapchar k' hne
    rw [hgj] at hmc
    apply get_eq_some_iff.mpr
    by_cases hjn : j = t.data.length - 1
    · -- the surviving key occupied the last slot and was moved to slot i
      rw [if_pos (by rw [hjn])] at hmc
      have hilt : i < t.data.length - 1 := by
        have := hwf.slot_lt hm
        omega
      refine ⟨i, hmc, ?_⟩
      rw [hdatachar i hilt, if_pos rfl, ← hjn]
      exact hdj
    · rw [if_neg (fun hc => hjn (Option.some.inj hc))] at hmc
      refine ⟨j, hmc, ?_⟩
      rw [hdatachar j (by omega), if_neg hji]
      exact hdj

/-! Behaviour of `Table::add_with_key`. -/

/-- Adding under a key with no map entry literally appends to all three
components (the initial `remove` is a no-op). -/
theorem add_with_key_fresh {α : Type} {t : Table α} {k : Nat} (v : α)
    (h : mget t.map k = none) :
    t.add_with_key k v = some
      ⟨t.map ++ [(k, t.data.length)], t.data ++ [v], t.reverse ++ [k]⟩ := by
  simp only [Table.add_with_key, remove_dead h]
  rw [minsert, mremove_eq_of_none h]
  simp

/-- Appending a value under a fresh key preserves the invariant and frames
every other key's entry. -/
theorem append_fresh_spec {α : Type} {t : Table α} (hwf : t.WF) {k : Nat}
    (v : α) (h : mget t.map k = none) :
    (Table.mk (t.map ++ [(k, t.data.length)]) (t.data ++ [v])
      (t.reverse ++ [k]) : Table α).WF ∧
    mget (t.map ++ [(k, t.data.length)]) k = some t.data.length ∧
    (∀ k', k' ≠ k →
      mget (t.map ++ [(k, t.data.length)]) k' = mget t.map k') := by
  have hml := hwf.map_len
  have hrl := hwf.rev_len
  have hins : t.map ++ [(k, t.data.length)] = minsert t.map k t.data.length := by
    rw [minsert, mremove_eq_of_none h]
  have hself : mget (t.map ++ [(k, t.data.length)]) k = some t.data.length := by
    rw [mget_append_right h]
    simp [mget]
  have hother : ∀ k', k' ≠ k →
      mget (t.map ++ [(k, t.data.length)]) k' = mget t.map k' := by
    intro k' hne
    cases hg : mget t.map k' with
    | none =>
      rw [mget_append_right hg]
      have hc : ¬k = k' := fun he => hne he.symm
      simp [mget, hc, hg]
    | some j => exact mget_append_left hg
  refine ⟨⟨?_, by simp; omega, by simp; omega, ?_, ?_⟩, hself, hother⟩
  · rw [hins]
    exact nodupKeys_minsert _ _ hwf.nodup
  · intro j hj
    have hq : (t.reverse ++ [k])[j]? =
        some ((t.reverse ++ [k]).get ⟨j, hj⟩) := List.getElem?_eq_getElem hj
    rw [List.getElem?_append] at hq
    by_cases hjn : j < t.reverse.length
    · rw [if_pos hjn] at hq
      have hkey := hwf.mget_of_rev hq
      rw [hother _ ?_]
      · exact hkey
      · intro he
        rw [he] at hkey
        rw [h] at hkey
        exact Option.noConfusion hkey
    · rw [if_neg hjn] at hq
      have hje : j = t.reverse.length := by
        simp at hj
        omega
      have hqk : [k][j - t.reverse.length]? = some k := by
        rw [hje]
        simp
      rw [hqk] at hq
      have hkey : (t.reverse ++ [k]).get ⟨j, hj⟩ = k := (Option.some.inj hq).symm
      show mget (t.map ++ [(k, t.data.length)])
        ((t.reverse ++ [k]).get ⟨j, hj⟩) = some j
      rw [hkey, hself, hje, hrl]
  · intro p hp
    rcases List.mem_append.mp hp with hp1 | hp1
    · have hrev := hwf.mem_rev p hp1
      have hlt : p.2 < t.reverse.length := (List.getElem?_eq_some.mp hrev).1
      rw [List.getElem?_append, if_pos hlt]
      exact hrev
    · simp only [List.mem_singleton] at hp1
      rw [hp1]
      show (t.reverse ++ [k])[t.data.length]? = some k
      rw [← hrl]
      simp

/-- Appending a fresh entry leaves every previously `get`-table value
unchanged at its slot. -/
theorem append_preserves_get {α : Type} {t : Table α} (hwf : t.WF)
    {k : Nat} (v : α) :
    ∀ k' w, t.get k' = some (some w) →
      (Table.mk (t.map ++ [(k, t.data.length)]) (t.data ++ [v])
        (t.reverse ++ [k]) : Table α).get k' = some (some w) := by
  intro k' w hget
  obtain ⟨j, hgj, hdj⟩ := get_eq_some_iff.mp hget
  have hjlt : j < t.data.length := hwf.slot_lt hgj
  apply get_eq_some_iff.mpr
  refine ⟨j, mget_append_left hgj, ?_⟩
  show (t.data ++ [v])[j]? = some w
  rw [List.getElem?_append, if_pos hjlt]
  exact hdj

/-- Full characterization of `add_with_key`: it succeeds, preserves the
invariant, maps the key to the last slot which holds the new value, grows
the store by one slot unless the key was live (then the size is unchanged),
and frames every other key. -/
theorem add_with_key_spec {α : Type} {t : Table α} (hwf : t.WF)
    (k : Nat) (v : α) :
    ∃ t', t.add_with_key k v = some t' ∧ t'.WF ∧
      mget t'.map k = some (t'.data.length - 1) ∧
      t'.data.length =
        (if (mget t.map k).isSome then t.data.length else t.data.length + 1) ∧
      t'.data.getLast? = some v ∧
      t'.get k = some (some v) ∧
      (∀ k', k' ≠ k → ((mget t'.map k').isSome ↔ (mget t.map k').isSome)) ∧
      (∀ k' w, k' ≠ k → t.get k' = some (some w) →
        t'.get k' = some (some w)) := by
  cases hm : mget t.map k with
  | none =>
    obtain ⟨hwf', hself, hother⟩ := append_fresh_spec hwf v hm
    refine ⟨⟨t.map ++ [(k, t.data.length)], t.data ++ [v], t.reverse ++ [k]⟩,
      add_with_key_fresh v hm, hwf', by simpa using hself, by simp [hm],
      by simp, get_eq_some_iff.mpr ⟨t.data.length, hself, by simp⟩, ?_, ?_⟩
    · intro k' hne
      show (mget (t.map ++ [(k, t.data.length)]) k').isSome ↔
        (mget t.map k').isSome
      rw [hother k' hne]
    · intro k' w _ hget
      exact append_preserves_get hwf v k' w hget
  | some i =>
    obtain ⟨v₀, t₁, hr, hvi, hwf₁, hlen, hdead, hmapchar, hdatachar⟩ :=
      remove_spec hwf hm
    have heq : t.add_with_key k v = t₁.add_with_key k v := by
      simp only [Table.add_with_key, hr, remove_dead hdead]
    obtain ⟨hwf', hself, hother⟩ := append_fresh_spec hwf₁ v hdead
    have hlive : ∀ k', k' ≠ k →
        ((mget t₁.map k').isSome ↔ (mget t.map k').isSome) := by
      intro k' hne
      rw [hmapchar k' hne]
      by_cases hc : mget t.map k' = some (t.data.length - 1)
      · rw [if_pos hc, hc]
        simp
      · rw [if_neg hc]
    refine ⟨⟨t₁.map ++ [(k, t₁.data.length)], t₁.data ++ [v],
        t₁.reverse ++ [k]⟩,
      heq.trans (add_with_key_fresh v hdead), hwf', by simpa using hself,
      by simp [hm]; omega, by simp,
      get_eq_some_iff.mpr ⟨t₁.data.length, hself, by simp⟩, ?_, ?_⟩
    · intro k' hne
      show (mget (t₁.map ++ [(k, t₁.data.length)]) k').isSome ↔
        (mget t.map k').isSome
      rw [hother k' hne]
      exact hlive k' hne
    · intro k' w hne hget
      exact append_preserves_get hwf₁ v k' w
        (remove_preserves_get hwf hr k' w hne hget)

/-! Remaining supporting lemmas. -/

/-- The empty table satisfies the invariant. -/
theorem wf_empty (α : Type) : (Table.mk [] [] [] : Table α).WF := by
  refine ⟨by simp [NodupKeys], rfl, rfl, ?_, ?_⟩
  · intro i h
    simp at h
  · intro p hp
    simp at hp

/-- Mutating a value in place (what a caller does through `get_mut`)
preserves the invariant: the map and the reverse log are untouched and the
dense store keeps its length. -/
theorem wf_set_data {α : Type} {t : Table α} (hwf : t.WF) (i : Nat) (v : α) :
    (Table.mk t.map (t.data.set i v) t.reverse : Table α).WF := by
  refine ⟨hwf.1, ?_, ?_, hwf.2.2.2.1, hwf.2.2.2.2⟩
  · rw [List.length_set]
    exact hwf.2.1
  · rw [List.length_set]
    exact hwf.2.2.1

/-- The reverse key log never repeats a key. -/
theorem Table.WF.rev_nodup {α : Type} {t : Table α} (hwf : t.WF) :
    t.reverse.Nodup := by
  rw [List.nodup_iff_injective_get]
  intro a b hab
  have h1 := hwf.2.2.2.1 a.1 a.2
  have h2 := hwf.2.2.2.1 b.1 b.2
  rw [show (⟨a.1, a.2⟩ : Fin t.reverse.length) = a from rfl, hab] at h1
  rw [show (⟨b.1, b.2⟩ : Fin t.reverse.length) = b from rfl] at h2
  exact Fin.ext (Option.some.inj (h1.symm.trans h2))

/-- The map, as a set of pairs, is exactly the graph of the reverse key
log: a permutation of `(reverse[0], 0), (reverse[1], 1), …`. -/
theorem map_perm_enum {α : Type} {t : Table α} (hwf : t.WF) :
    List.Perm t.map (t.reverse.enum.map (fun p => (p.2, p.1))) := by
  have hnd₁ : t.map.Nodup := hwf.nodup.of_map _
  have hnd₂ : (t.reverse.enum.map (fun p => (p.2, p.1))).Nodup := by
    apply List.Nodup.of_map (f := Prod.fst)
    rw [List.map_map]
    have : (Prod.fst ∘ fun p : Nat × Nat => (p.2, p.1)) = Prod.snd := rfl
    rw [this, List.enum_map_snd]
    exact hwf.rev_nodup
  rw [List.perm_ext_iff_of_nodup hnd₁ hnd₂]
  intro p
  constructor
  · intro hp
    have hrev := hwf.mem_rev p hp
    apply List.mem_map.mpr
    refine ⟨(p.2, p.1), ?_, rfl⟩
    exact List.mem_enum_iff_getElem?.mpr hrev
  · intro hp
    obtain ⟨q, hq, hqe⟩ := List.mem_map.mp hp
    have hrev := List.mem_enum_iff_getElem?.mp hq
    have hm : mget t.map q.2 = some q.1 := hwf.mget_of_rev hrev
    have := mget_mem hm
    rw [← hqe]
    exact this

/-- In slot order, looking keys up through `get` yields exactly the dense
store's values. -/
theorem rev_map_get {α : Type} {t : Table α} (hwf : t.WF) :
    t.reverse.map (fun k => t.get k) =
      t.data.map (fun v => some (some v)) := by
  apply List.ext_getElem?
  intro j
  rw [List.getElem?_map, List.getElem?_map]
  by_cases hj : j < t.data.length
  · have hj' : j < t.reverse.length := by
      rw [hwf.rev_len]
      exact hj
    have hq : t.reverse[j]? = some (t.reverse.get ⟨j, hj'⟩) :=
      List.getElem?_eq_getElem hj'
    rw [hq, List.getElem?_eq_getElem hj]
    have hm : mget t.map t.reverse[j] = some j := hwf.2.2.2.1 j hj'
    have hgv : t.get t.reverse[j] = some (some t.data[j]) := by
      simp [Table.get, hm, List.getElem?_eq_getElem hj]
    simp [hgv]
  · have h1 : t.reverse[j]? = none := by
      apply List.getElem?_eq_none
      rw [hwf.rev_len]
      omega
    have h2 : t.data[j]? = none := by
      apply List.getElem?_eq_none
      omega
    rw [h1, h2]
    rfl

/-- Count bookkeeping over a call sequence: when the inserted keys are
pairwise distinct and fresh for the start state, and every remove targets
a live key, the whole sequence succeeds and the final size is the initial
size plus the number of adds minus the number of removes. -/
theorem count_seq {α : Type} : ∀ (ops : List (Op α)) (t : Table α), t.WF →
    (addKeys ops).Nodup →
    (∀ k, k ∈ addKeys ops → mget t.map k = none) →
    removesLive t ops = true →
    ∃ t', applyOps t ops = some t' ∧
      t'.data.length + numRemoves ops = t.data.length + numAdds ops := by
  intro ops
  induction ops with
  | nil =>
    intro t _ _ _ _
    exact ⟨t, rfl, by simp [numAdds, numRemoves]⟩
  | cons op rest ih =>
    intro t hwf hnd hfresh hlive
    cases op with
    | addk k v =>
      have hfk : mget t.map k = none := hfresh k (by simp [addKeys])
      obtain ⟨t₁, he, hwf₁, hself, hlen, _, _, hliveiff, _⟩ :=
        add_with_key_spec hwf k v
      have happ : applyOp t (Op.addk k v) = some t₁ := he
      rw [hfk] at hlen
      simp at hlen
      have hnd' : (addKeys rest).Nodup := by
        simp [addKeys] at hnd
        exact hnd.2
      have hknotin : k ∉ addKeys rest := by
        simp [addKeys] at hnd
        exact hnd.1
      have hfresh' : ∀ k', k' ∈ addKeys rest → mget t₁.map k' = none := by
        intro k' hk'
        have hne : k' ≠ k := fun heq => hknotin (heq ▸ hk')
        have h0 : mget t.map k' = none := hfresh k' (by simp [addKeys, hk'])
        have hiff := hliveiff k' hne
        cases hg : mget t₁.map k' with
        | none => rfl
        | some j =>
          rw [hg, h0] at hiff
          simp at hiff
      have hlive' : removesLive t₁ rest = true := by
        simp only [removesLive, happ, Bool.true_and] at hlive
        exact hlive
      obtain ⟨t', happs, hcount⟩ := ih t₁ hwf₁ hnd' hfresh' hlive'
      refine ⟨t', by simp [applyOps, happ, happs], ?_⟩
      simp only [numAdds, numRemoves]
      omega
    | rem k =>
      have hsome : (mget t.map k).isSome = true := by
        simp only [removesLive, Bool.and_eq_true] at hlive
        exact hlive.1
      obtain ⟨i, hm⟩ := Option.isSome_iff_exists.mp hsome
      obtain ⟨v₀, t₁, hr, _, hwf₁, hlen, hdead, hmapchar, _⟩ :=
        remove_spec hwf hm
      have happ : applyOp t (Op.rem k) = some t₁ := by
        simp [applyOp, hr]
      have hnd' : (addKeys rest).Nodup := by
        simpa [addKeys] using hnd
      have hfresh' : ∀ k', k' ∈ addKeys rest → mget t₁.map k' = none := by
        intro k' hk'
        by_cases hne : k' = k
        · rw [hne]
          exact hdead
        · have h0 : mget t.map k' = none := hfresh k' (by simp [addKeys, hk'])
          rw [hmapchar k' hne, h0]
          simp
      have hlive' : removesLive t₁ rest = true := by
        simp only [removesLive, happ, Bool.and_eq_true] at hlive
        exact hlive.2
      obtain ⟨t', happs, hcount⟩ := ih t₁ hwf₁ hnd' hfresh' hlive'
      refine ⟨t', by simp [applyOps, happ, happs], ?_⟩
      simp only [numAdds, numRemoves]
      omega

/-! The claims.  `Table.WF` holds in every reachable state: it holds for
`with_capacity`/`default` and is preserved by every operation (claim C2),
so a `WF` hypothesis below quantifies over all reachable table states. -/

/-- C1: removing a live key whose slot is not the last occupied slot keeps
every other live key's `get` value intact; the key that occupied the last
slot is remapped to the vacated slot `i` and its value moved there. -/
theorem claim_C1_swap_compaction {α : Type} {t : Table α} {k i : Nat}
    (hwf : t.WF) (hk : mget t.map k = some i) (hnotlast : i + 1 < t.count) :
    ∃ v t', t.remove k = some (some v, t') ∧
      (∀ k' w, k' ≠ k → t.get k' = some (some w) →
        t'.get k' = some (some w)) ∧
      ∃ pk, t.reverse[t.count - 1]? = some pk ∧
        mget t'.map pk = some i ∧
        t'.data[i]? = t.data[t.count - 1]? := by
  obtain ⟨v, t', hr, hvi, hwf', hlen, hdead, hmapchar, hdatachar⟩ :=
    remove_spec hwf hk
  refine ⟨v, t', hr, remove_preserves_get hwf hr, ?_⟩
  have hrl := hwf.rev_len
  have hi : i < t.data.length := hwf.slot_lt hk
  have hnl : i + 1 < t.data.length := hnotlast
  obtain ⟨pk, hpkLast, hpkIdx⟩ :=
    getLast?_eq_some_of_lt (l := t.reverse) (by omega)
  rw [hrl] at hpkIdx
  have hpkMap : mget t.map pk = some (t.data.length - 1) :=
    hwf.mget_of_rev hpkIdx
  have hpkk : pk ≠ k := by
    intro he
    rw [he, hk] at hpkMap
    have := Option.some.inj hpkMap
    omega
  refine ⟨pk, hpkIdx, ?_, ?_⟩
  · rw [hmapchar pk hpkk, if_pos hpkMap]
  · have hilt : i < t.data.length - 1 := by omega
    rw [hdatachar i hilt, if_pos rfl]
    exact rfl

/-- C2: every state-producing operation preserves the invariant (one map
entry per live key pointing to a slot below `count`, `reverse` inverse to
the map, equal component lengths); `get`, `count`, `values` and `keys` do
not mutate the state at all, so they preserve it trivially.  The trailing
conjuncts spell out what the invariant gives on the current state. -/
theorem claim_C2_invariant_preservation {α : Type} {t : Table α}
    (hwf : t.WF) :
    (∀ n, (Table.with_capacity α n).WF) ∧
    (Table.mkDefault α).WF ∧
    t.clear.WF ∧
    (∀ k v t', t.add_with_key k v = some t' → t'.WF) ∧
    (∀ key v k t', t.add key v = some (k, t') → t'.WF) ∧
    (∀ k r t', t.remove k = some (r, t') → t'.WF) ∧
    (∀ k v r t', t.get_mut k v = some (r, t') → t'.WF) ∧
    (∀ k i, mget t.map k = some i → i < t.count) ∧
    t.map.length = t.count ∧ t.reverse.length = t.count := by
  refine ⟨fun _ => wf_empty α, wf_empty α, wf_empty α, ?_, ?_, ?_, ?_,
    fun k i h => hwf.slot_lt h, hwf.map_len, hwf.rev_len⟩
  · intro k v t' h
    obtain ⟨t₂, he, hwf', _⟩ := add_with_key_spec hwf k v
    rw [he] at h
    exact (Option.some.inj h) ▸ hwf'
  · intro key v k t' h
    obtain ⟨t₂, he, hwf', _⟩ := add_with_key_spec hwf key v
    simp only [Table.add, he] at h
    have ht : t₂ = t' := congrArg Prod.snd (Option.some.inj h)
    exact ht ▸ hwf'
  · intro k r t' h
    cases hm : mget t.map k with
    | none =>
      rw [remove_dead hm] at h
      have ht : t = t' := congrArg Prod.snd (Option.some.inj h)
      exact ht ▸ hwf
    | some i =>
      obtain ⟨v₀, t₀, hr, _, hwf', _⟩ := remove_spec hwf hm
      rw [hr] at h
      have ht : t₀ = t' := congrArg Prod.snd (Option.some.inj h)
      exact ht ▸ hwf'
  · intro k v r t' h
    cases hm : mget t.map k with
    | none =>
      simp only [Table.get_mut, hm] at h
      have ht : t = t' := congrArg Prod.snd (Option.some.inj h)
      exact ht ▸ hwf
    | some i =>
      have hi := hwf.slot_lt hm
      have hd : t.data[i]? = some (t.data.get ⟨i, hi⟩) :=
        List.getElem?_eq_getElem hi
      simp only [Table.get_mut, hm, hd] at h
      have ht : Table.mk t.map (t.data.set i v) t.reverse = t' :=
        congrArg Prod.snd (Option.some.inj h)
      exact ht ▸ wf_set_data hwf i v

/-- C3: `add` always succeeds, returns the drawn key, and an immediate
`get` on that key returns the value just inserted. -/
theorem claim_C3_roundtrip {α : Type} {t : Table α} (hwf : t.WF)
    (key : Nat) (v : α) :
    (∃ k t', t.add key v = some (k, t')) ∧
    (∀ k t', t.add key v = some (k, t') → t'.get k = some (some v)) := by
  obtain ⟨t₂, he, _, _, _, _, hget, _, _⟩ := add_with_key_spec hwf key v
  constructor
  · exact ⟨key, t₂, by simp [Table.add, he]⟩
  · intro k t' h
    simp only [Table.add, he] at h
    have hk : key = k := congrArg Prod.fst (Option.some.inj h)
    have ht : t₂ = t' := congrArg Prod.snd (Option.some.inj h)
    rw [← hk, ← ht]
    exact hget

/-- C4: `add_with_key` twice under the same key succeeds both times (a
collision never errors), the final `get` sees the second value, and the
second call leaves `count` unchanged. -/
theorem claim_C4_overwrite {α : Type} {t : Table α} (hwf : t.WF)
    (k : Nat) (v₁ v₂ : α) :
    ∃ t₁ t₂, t.add_with_key k v₁ = some t₁ ∧
      t₁.add_with_key k v₂ = some t₂ ∧
      t₂.get k = some (some v₂) ∧ t₂.count = t₁.count := by
  obtain ⟨t₁, he₁, hwf₁, hself₁, _, _, _, _, _⟩ := add_with_key_spec hwf k v₁
  obtain ⟨t₂, he₂, _, _, hlen₂, _, hget₂, _, _⟩ := add_with_key_spec hwf₁ k v₂
  refine ⟨t₁, t₂, he₁, he₂, hget₂, ?_⟩
  show t₂.data.length = t₁.data.length
  rw [hlen₂, hself₁]
  simp

/-- C5: `get`, `get_mut` and `remove` on a non-live key return an explicit
absent result and leave the table untouched; hence a second `remove` of a
key right after successfully removing it returns absent. -/
theorem claim_C5_absent_total {α : Type} (t : Table α) (hwf : t.WF)
    (k : Nat) (v : α) :
    (mget t.map k = none →
      t.get k = some none ∧ t.get_mut k v = some (none, t) ∧
      t.remove k = some (none, t)) ∧
    (∀ w t', t.remove k = some (some w, t') →
      t'.remove k = some (none, t')) := by
  constructor
  · intro hdead
    refine ⟨by simp [Table.get, hdead], by simp [Table.get_mut, hdead],
      remove_dead hdead⟩
  · intro w t' h
    cases hm : mget t.map k with
    | none =>
      rw [remove_dead hm] at h
      simp at h
    | some i =>
      obtain ⟨v₀, t₀, hr, _, _, _, hdead, _, _⟩ := remove_spec hwf hm
      rw [hr] at h
      have ht : t₀ = t' := congrArg Prod.snd (Option.some.inj h)
      rw [← ht]
      exact remove_dead hdead

/-- C6: starting from an empty table, a sequence of adds with pairwise
distinct keys and removes that each target a then-live key succeeds, and
afterwards `count` equals the number of adds minus the number of removes
(stated additively; in particular removes never exceed adds). -/
theorem claim_C6_count {α : Type} (ops : List (Op α))
    (hnd : (addKeys ops).Nodup)
    (hlive : removesLive (Table.mkDefault α) ops = true) :
    ∃ t', applyOps (Table.mkDefault α) ops = some t' ∧
      t'.count + numRemoves ops = numAdds ops ∧
      numRemoves ops ≤ numAdds ops := by
  obtain ⟨t', happ, hc⟩ := count_seq ops (Table.mkDefault α) (wf_empty α)
    hnd (fun _ _ => rfl) hlive
  have hc' : t'.data.length + numRemoves ops = numAdds ops := by
    simpa [Table.mkDefault, Table.with_capacity] using hc
  exact ⟨t', happ, hc', by omega⟩

/-- C7: `values()` yields exactly `count` elements, and looking every live
key up with `get` yields, as a multiset (permutation), exactly the values
`values()` yields. -/
theorem claim_C7_iteration {α : Type} {t : Table α} (hwf : t.WF) :
    t.values.length = t.count ∧
    List.Perm (t.keys.map (fun k => t.get k))
      (t.values.map (fun v => some (some v))) := by
  refine ⟨rfl, ?_⟩
  have hperm := map_perm_enum hwf
  have hkeys : List.Perm t.keys t.reverse := by
    have h1 := hperm.map Prod.fst
    rw [List.map_map] at h1
    have he : (Prod.fst ∘ fun p : Nat × Nat => (p.2, p.1)) = Prod.snd := rfl
    rw [he, List.enum_map_snd] at h1
    exact h1
  have h2 := hkeys.map (fun k => t.get k)
  rw [rev_map_get hwf] at h2
  exact h2

/-- C8: on a live key, `add_with_key` is remove-then-append: the old value
is removed by the removal algorithm, the new value is appended as a fresh
slot, so the key's map entry is the last occupied slot, the new value is
the last element `values()` yields, and `count` is unchanged. -/
theorem claim_C8_remove_then_append {α : Type} {t : Table α} {k i : Nat}
    (hwf : t.WF) (v : α) (hlive : mget t.map k = some i) :
    ∃ w t₁ t', t.remove k = some (some w, t₁) ∧
      t.add_with_key k v = some t' ∧
      t' = Table.mk (t₁.map ++ [(k, t₁.data.length)]) (t₁.data ++ [v])
        (t₁.reverse ++ [k]) ∧
      mget t'.map k = some (t'.count - 1) ∧
      t'.values.getLast? = some v ∧
      t'.count = t.count := by
  obtain ⟨w, t₁, hr, hvi, hwf₁, hlen, hdead, hmapchar, hdatachar⟩ :=
    remove_spec hwf hlive
  have heq : t.add_with_key k v = t₁.add_with_key k v := by
    simp only [Table.add_with_key, hr, remove_dead hdead]
  obtain ⟨hwf2, hself, hother⟩ := append_fresh_spec hwf₁ v hdead
  refine ⟨w, t₁, _, hr, heq.trans (add_with_key_fresh v hdead), rfl,
    ?_, ?_, ?_⟩
  · show mget (t₁.map ++ [(k, t₁.data.length)]) k =
      some ((t₁.data ++ [v]).length - 1)
    simpa using hself
  · show (t₁.data ++ [v]).getLast? = some v
    simp
  · show (t₁.data ++ [v]).length = t.data.length
    simp
    omega

/-- C9: in a well-formed state every map entry's slot is in bounds for the
dense store (so the unchecked accesses in `get`/`get_mut` are safe), and
`get`, `get_mut`, `remove` and `add_with_key` never hit a fault branch
(out-of-bounds access or failing `unwrap`). -/
theorem claim_C9_no_fault {α : Type} {t : Table α} (hwf : t.WF) :
    (∀ k i, mget t.map k = some i → i < t.data.length) ∧
    (∀ k, (t.get k).isSome) ∧
    (∀ k v, (t.get_mut k v).isSome) ∧
    (∀ k, (t.remove k).isSome) ∧
    (∀ k v, (t.add_with_key k v).isSome) := by
  refine ⟨fun k i h => hwf.slot_lt h, ?_, ?_, ?_, ?_⟩
  · intro k
    cases hm : mget t.map k with
    | none => simp [Table.get, hm]
    | some i =>
      have hi := hwf.slot_lt hm
      simp [Table.get, hm, List.getElem?_eq_getElem hi]
  · intro k v
    cases hm : mget t.map k with
    | none => simp [Table.get_mut, hm]
    | some i =>
      have hi := hwf.slot_lt hm
      simp [Table.get_mut, hm, List.getElem?_eq_getElem hi]
  · intro k
    cases hm : mget t.map k with
    | none => simp [remove_dead hm]
    | some i =>
      obtain ⟨v₀, t₀, hr, _⟩ := remove_spec hwf hm
      simp [hr]
  · intro k v
    obtain ⟨t', he, _⟩ := add_with_key_spec hwf k v
    simp [he]

/-- C10: inserting under a key that is not live appends the value and the
key at the end and frames everything else: every other key keeps exactly
its map entry (same slot) and its `get` value; `add` behaves identically
once its drawn key is fixed. -/
theorem claim_C10_insert_frame {α : Type} {t : Table α} {k : Nat}
    (hwf : t.WF) (v : α) (hfresh : mget t.map k = none) :
    ∃ t', t.add_with_key k v = some t' ∧
      t.add k v = some (k, t') ∧
      t'.data = t.data ++ [v] ∧
      t'.reverse = t.reverse ++ [k] ∧
      (∀ k', k' ≠ k → mget t'.map k' = mget t.map k') ∧
      (∀ k' w, k' ≠ k → t.get k' = some (some w) →
        t'.get k' = some (some w)) := by
  obtain ⟨hwf2, hself, hother⟩ := append_fresh_spec hwf v hfresh
  refine ⟨_, add_with_key_fresh v hfresh,
    by simp [Table.add, add_with_key_fresh v hfresh], rfl, rfl, hother, ?_⟩
  intro k' w _ hget
  exact append_preserves_get hwf v k' w hget

/-! Witnesses: each claim theorem applied at concrete data. -/

/-- Witness for C1 at the sample table, removing key 5 at slot 0. -/
theorem claim_C1_witness :
    tblA.WF ∧ mget tblA.map 5 = some 0 ∧ 0 + 1 < tblA.count ∧
    (∃ v t', tblA.remove 5 = some (some v, t') ∧
      (∀ k' w, k' ≠ 5 → tblA.get k' = some (some w) →
        t'.get k' = some (some w)) ∧
      ∃ pk, tblA.reverse[tblA.count - 1]? = some pk ∧
        mget t'.map pk = some 0 ∧
        t'.data[0]? = tblA.data[tblA.count - 1]?) :=
  ⟨by decide, by decide, by decide,
    claim_C1_swap_compaction (t := tblA) (k := 5) (i := 0)
      (by decide) (by decide) (by decide)⟩

/-- Witness for C2 at the sample table. -/
theorem claim_C2_witness :
    tblA.WF ∧
    ((∀ n, (Table.with_capacity Nat n).WF) ∧
     (Table.mkDefault Nat).WF ∧
     tblA.clear.WF ∧
     (∀ k v t', tblA.add_with_key k v = some t' → t'.WF) ∧
     (∀ key v k t', tblA.add key v = some (k, t') → t'.WF) ∧
     (∀ k r t', tblA.remove k = some (r, t') → t'.WF) ∧
     (∀ k v r t', tblA.get_mut k v = some (r, t') → t'.WF) ∧
     (∀ k i, mget tblA.map k = some i → i < tblA.count) ∧
     tblA.map.length = tblA.count ∧ tblA.reverse.length = tblA.count) :=
  ⟨by decide, claim_C2_invariant_preservation (t := tblA) (by decide)⟩

/-- Witness for C3 at the sample table, drawing key 42 for value 99. -/
theorem claim_C3_witness :
    tblA.WF ∧
    ((∃ k t', tblA.add 42 99 = some (k, t')) ∧
     (∀ k t', tblA.add 42 99 = some (k, t') → t'.get k = some (some 99))) :=
  ⟨by decide, claim_C3_roundtrip (t := tblA) (by decide) 42 99⟩

/-- Witness for C4 at the sample table: key 7 overwritten 111 then 222. -/
theorem claim_C4_witness :
    tblA.WF ∧
    (∃ t₁ t₂, tblA.add_with_key 7 111 = some t₁ ∧
      t₁.add_with_key 7 222 = some t₂ ∧
      t₂.get 7 = some (some 222) ∧ t₂.count = t₁.count) :=
  ⟨by decide, claim_C4_overwrite (t := tblA) (by decide) 7 111 222⟩

/-- Witness for C5 at the sample table and dead key 999. -/
theorem claim_C5_witness :
    tblA.WF ∧
    ((mget tblA.map 999 = none →
      tblA.get 999 = some none ∧ tblA.get_mut 999 0 = some (none, tblA) ∧
      tblA.remove 999 = some (none, tblA)) ∧
     (∀ w t', tblA.remove 999 = some (some w, t') →
      t'.remove 999 = some (none, t'))) :=
  ⟨by decide, claim_C5_absent_total tblA (by decide) 999 0⟩

/-- Witness for C6: three adds with distinct keys, one remove of a live
key, count ends at 2 = 3 - 1. -/
theorem claim_C6_witness :
    (addKeys opsA).Nodup ∧ removesLive (Table.mkDefault Nat) opsA = true ∧
    (∃ t', applyOps (Table.mkDefault Nat) opsA = some t' ∧
      t'.count + numRemoves opsA = numAdds opsA ∧
      numRemoves opsA ≤ numAdds opsA) :=
  ⟨by decide, by decide, claim_C6_count opsA (by decide) (by decide)⟩

/-- Witness for C7 at the sample table. -/
theorem claim_C7_witness :
    tblA.WF ∧
    (tblA.values.length = tblA.count ∧
     List.Perm (tblA.keys.map (fun k => tblA.get k))
       (tblA.values.map (fun v => some (some v)))) :=
  ⟨by decide, claim_C7_iteration (t := tblA) (by decide)⟩

/-- Witness for C8 at the sample table: re-adding live key 5 with 77. -/
theorem claim_C8_witness :
    tblA.WF ∧ mget tblA.map 5 = some 0 ∧
    (∃ w t₁ t', tblA.remove 5 = some (some w, t₁) ∧
      tblA.add_with_key 5 77 = some t' ∧
      t' = Table.mk (t₁.map ++ [(5, t₁.data.length)]) (t₁.data ++ [77])
        (t₁.reverse ++ [5]) ∧
      mget t'.map 5 = some (t'.count - 1) ∧
      t'.values.getLast? = some 77 ∧
      t'.count = tblA.count) :=
  ⟨by decide, by decide,
    claim_C8_remove_then_append (t := tblA) (k := 5) (i := 0)
      (by decide) 77 (by decide)⟩

/-- Witness for C9 at the sample table. -/
theorem claim_C9_witness :
    tblA.WF ∧
    ((∀ k i, mget tblA.map k = some i → i < tblA.data.length) ∧
     (∀ k, (tblA.get k).isSome) ∧
     (∀ k v, (tblA.get_mut k v).isSome) ∧
     (∀ k, (tblA.remove k).isSome) ∧
     (∀ k v, (tblA.add_with_key k v).isSome)) :=
  ⟨by decide, claim_C9_no_fault (t := tblA) (by decide)⟩

/-- Witness for C10 at the sample table and fresh key 42. -/
theorem claim_C10_witness :
    tblA.WF ∧ mget tblA.map 42 = none ∧
    (∃ t', tblA.add_with_key 42 50 = some t' ∧
      tblA.add 42 50 = some (42, t') ∧
      t'.data = tblA.data ++ [50] ∧
      t'.reverse = tblA.reverse ++ [42] ∧
      (∀ k', k' ≠ 42 → mget t'.map k' = mget tblA.map k') ∧
      (∀ k' w, k' ≠ 42 → tblA.get k' = some (some w) →
        t'.get k' = some (some w))) :=
  ⟨by decide, by decide,
    claim_C10_insert_frame (t := tblA) (k := 42) (by decide) 50 (by decide)⟩

end Uuidmap
